import Mathlib

/-!
Verification of the `MolecularHamiltonian` component of ffsim
(`src/python/ffsim/hamiltonians/molecular_hamiltonian.py`).

Modelling conventions (shallow embedding):

* Complex floating-point scalars are modelled exactly as complex numbers with
  rational real and imaginary parts (`CQ`).  Exact equality of `CQ` values
  entails "equality within floating-point tolerance", so round-trip and
  identity claims are settled with exact arithmetic.
* A numpy array of shape `norb × ... × norb` is modelled as a total function
  from indices to `CQ` together with the dimension `norb`; all reads and
  writes performed by the code stay below `norb`, and record equality is
  compared entrywise below `norb` (the array extent).
* A `FermionOperator` is a mapping from action tuples to coefficients,
  iterated in insertion order (Python dict semantics); it is modelled as an
  association list in that order.  An action `cre_a(p)`/`des_b(p)`/... is the
  triple (create?, spin, orbital) exactly as in `ffsim.operators`.
* Python exceptions (`ValueError` from validation or from `max()` on an empty
  sequence, `NotImplementedError`) are modelled with `Except String`.
-/

/-- Complex numbers with rational components: the exact model of the complex
floating-point scalars used by the Python code. -/
structure CQ where
  re : ℚ
  im : ℚ
deriving DecidableEq, Repr

namespace CQ

instance : Zero CQ := ⟨⟨0, 0⟩⟩
instance : One CQ := ⟨⟨1, 0⟩⟩
instance : Add CQ := ⟨fun x y => ⟨x.re + y.re, x.im + y.im⟩⟩
instance : Mul CQ := ⟨fun x y => ⟨x.re * y.re - x.im * y.im, x.re * y.im + x.im * y.re⟩⟩
instance : Neg CQ := ⟨fun x => ⟨-x.re, -x.im⟩⟩

@[ext] theorem ext {x y : CQ} (hre : x.re = y.re) (him : x.im = y.im) : x = y := by
  cases x; cases y; simp_all

@[simp] theorem add_re (x y : CQ) : (x + y).re = x.re + y.re := rfl
@[simp] theorem add_im (x y : CQ) : (x + y).im = x.im + y.im := rfl
@[simp] theorem mul_re (x y : CQ) : (x * y).re = x.re * y.re - x.im * y.im := rfl
@[simp] theorem mul_im (x y : CQ) : (x * y).im = x.re * y.im + x.im * y.re := rfl
@[simp] theorem neg_re (x : CQ) : (-x).re = -x.re := rfl
@[simp] theorem neg_im (x : CQ) : (-x).im = -x.im := rfl
@[simp] theorem zero_re : (0 : CQ).re = 0 := rfl
@[simp] theorem zero_im : (0 : CQ).im = 0 := rfl
@[simp] theorem one_re : (1 : CQ).re = 1 := rfl
@[simp] theorem one_im : (1 : CQ).im = 0 := rfl

instance : CommRing CQ where
  nsmul := nsmulRec
  zsmul := zsmulRec
  add_assoc := by intros; ext <;> simp <;> ring
  zero_add := by intros; ext <;> simp
  add_zero := by intros; ext <;> simp
  add_comm := by intros; ext <;> simp <;> ring
  left_distrib := by intros; ext <;> simp <;> ring
  right_distrib := by intros; ext <;> simp <;> ring
  zero_mul := by intros; ext <;> simp
  mul_zero := by intros; ext <;> simp
  mul_assoc := by intros; ext <;> simp <;> ring
  one_mul := by intros; ext <;> simp
  mul_one := by intros; ext <;> simp
  mul_comm := by intros; ext <;> simp <;> ring
  neg_add_cancel := by intros; ext <;> simp

end CQ

/-- Embed a real (rational) scalar as a complex scalar, e.g. a Python float
used in a complex context. -/
def ofQ (q : ℚ) : CQ := ⟨q, 0⟩

@[simp] theorem ofQ_re (q : ℚ) : (ofQ q).re = q := rfl
@[simp] theorem ofQ_im (q : ℚ) : (ofQ q).im = 0 := rfl

/-- Complex conjugation (numpy `conj`). -/
def conjC (z : CQ) : CQ := ⟨z.re, -z.im⟩

@[simp] theorem conjC_re (z : CQ) : (conjC z).re = z.re := rfl
@[simp] theorem conjC_im (z : CQ) : (conjC z).im = -z.im := rfl

theorem ofQ_half_add_ofQ_half (c : CQ) : ofQ (1/2) * c + ofQ (1/2) * c = c := by
  ext <;> simp [ofQ] <;> ring

theorem ofQ_two_mul_ofQ_half (c : CQ) : ofQ 2 * (ofQ (1/2) * c) = c := by
  ext <;> simp [ofQ]

/-- A fermionic action, as in `ffsim.operators.FermionOperator`: the triple
(action, spin, orb) where `action = true` means creation and `spin = true`
means the beta species. -/
abbrev FermionAction : Type := Bool × Bool × ℕ

/-- `ffsim.operators.cre_a`: create an alpha-spin fermion at orbital `p`. -/
def cre_a (p : ℕ) : FermionAction := (true, false, p)

/-- `ffsim.operators.cre_b`: create a beta-spin fermion at orbital `p`. -/
def cre_b (p : ℕ) : FermionAction := (true, true, p)

/-- `ffsim.operators.des_a`: annihilate an alpha-spin fermion at orbital `p`. -/
def des_a (p : ℕ) : FermionAction := (false, false, p)

/-- `ffsim.operators.des_b`: annihilate a beta-spin fermion at orbital `p`. -/
def des_b (p : ℕ) : FermionAction := (false, true, p)

/-- A term key of a `FermionOperator`: an ordered tuple of actions. -/
abbrev FTerm : Type := List FermionAction

/-- A `FermionOperator`: a mapping from term keys to complex coefficients,
iterated in insertion order.  Modelled as the association list of
(term, coefficient) pairs in that order; the lists produced by the encoder
below have pairwise-distinct keys, matching Python dict semantics. -/
abbrev FermionOp : Type := List (FTerm × CQ)

/-- The `MolecularHamiltonian` record: `one_body_tensor` is a `norb × norb`
complex array, `two_body_tensor` a `norb^4` complex array, `constant` a float.
Arrays are modelled as total functions together with the extent `norb`
(in the source, `norb` is the first-axis length of `one_body_tensor`). -/
structure MolecularHamiltonian where
  norb : ℕ
  one_body_tensor : ℕ → ℕ → CQ
  two_body_tensor : ℕ → ℕ → ℕ → ℕ → CQ
  constant : ℚ

/-- The identity orbital-rotation matrix `numpy.eye(norb)` (entrywise). -/
def idMat : ℕ → ℕ → CQ := fun i j => if i = j then 1 else 0

/-- `MolecularHamiltonian.rotated`: the einsum contractions
`"ab,Aa,Bb->AB"` and `"abcd,Aa,Bb,Cc,Dd->ABCD"` of the tensors with the
orbital rotation `U` and its conjugate, written out as the sums they compute;
the constant is passed through unchanged.  `U` is an `norb × norb` matrix, so
the contraction indices range over `norb` and the result has extent `norb`. -/
def MolecularHamiltonian.rotated (H : MolecularHamiltonian) (U : ℕ → ℕ → CQ) :
    MolecularHamiltonian where
  norb := H.norb
  one_body_tensor := fun A B =>
    Finset.sum (Finset.range H.norb) fun a =>
      Finset.sum (Finset.range H.norb) fun b =>
        H.one_body_tensor a b * U A a * conjC (U B b)
  two_body_tensor := fun A B C D =>
    Finset.sum (Finset.range H.norb) fun a =>
      Finset.sum (Finset.range H.norb) fun b =>
        Finset.sum (Finset.range H.norb) fun c =>
          Finset.sum (Finset.range H.norb) fun d =>
            H.two_body_tensor a b c d * U A a * conjC (U B b) * U C c * conjC (U D d)
  constant := H.constant

/-- `itertools.product(range(n), repeat=2)` in iteration (lexicographic)
order. -/
def pyProduct2 (n : ℕ) : List (ℕ × ℕ) := (List.range n).product (List.range n)

/-- `itertools.product(range(n), repeat=4)` in iteration (lexicographic)
order; a 4-tuple `(p, q, r, s)` is the right-nested pair `(p, (q, (r, s)))`. -/
def pyProduct4 (n : ℕ) : List (ℕ × ℕ × ℕ × ℕ) :=
  (List.range n).product ((List.range n).product ((List.range n).product (List.range n)))

/-- The two one-body terms emitted for the pair `(p, q)`: the alpha then the
beta spin channel, each with coefficient `one_body_tensor[p, q]`. -/
def oneBodyBlock (h1 : ℕ → ℕ → CQ) (pq : ℕ × ℕ) : FermionOp :=
  [([cre_a pq.1, des_a pq.2], h1 pq.1 pq.2),
   ([cre_b pq.1, des_b pq.2], h1 pq.1 pq.2)]

/-- The four two-body terms emitted for the quadruple `(p, q, r, s)`, in the
spin-combination order of the source (alpha-alpha, alpha-beta, beta-alpha,
beta-beta), each with coefficient `0.5 * two_body_tensor[p, q, r, s]`. -/
def twoBodyBlock (h2 : ℕ → ℕ → ℕ → ℕ → CQ) (k : ℕ × ℕ × ℕ × ℕ) : FermionOp :=
  [([cre_a k.1, cre_a k.2.2.1, des_a k.2.2.2, des_a k.2.1], ofQ (1/2) * h2 k.1 k.2.1 k.2.2.1 k.2.2.2),
   ([cre_a k.1, cre_b k.2.2.1, des_b k.2.2.2, des_a k.2.1], ofQ (1/2) * h2 k.1 k.2.1 k.2.2.1 k.2.2.2),
   ([cre_b k.1, cre_a k.2.2.1, des_a k.2.2.2, des_b k.2.1], ofQ (1/2) * h2 k.1 k.2.1 k.2.2.1 k.2.2.2),
   ([cre_b k.1, cre_b k.2.2.1, des_b k.2.2.2, des_b k.2.1], ofQ (1/2) * h2 k.1 k.2.1 k.2.2.1 k.2.2.2)]

/-- `MolecularHamiltonian._fermion_operator_`: the encoder.  It starts from
`FermionOperator({(): constant})` and accumulates, for every `(p, q)` in
`itertools.product(range(norb), repeat=2)`, the two one-body terms, then for
every `(p, q, r, s)` in `itertools.product(range(norb), repeat=4)`, the four
two-body terms.  All inserted keys are pairwise distinct, so the resulting
mapping is the association list of the insertions in order. -/
def MolecularHamiltonian._fermion_operator_ (H : MolecularHamiltonian) : FermionOp :=
  (([] : FTerm), ofQ H.constant) ::
    ((pyProduct2 H.norb).flatMap (oneBodyBlock H.one_body_tensor) ++
     (pyProduct4 H.norb).flatMap (twoBodyBlock H.two_body_tensor))

/-- Pointwise write `g[p, q] = v` to a 2-index array. -/
def upd2 (g : ℕ → ℕ → CQ) (p q : ℕ) (v : CQ) : ℕ → ℕ → CQ :=
  fun a b => if (a, b) = (p, q) then v else g a b

/-- Pointwise write `g[k] = v` to a 4-index array at the quadruple `k`. -/
def upd4 (g : ℕ → ℕ → ℕ → ℕ → CQ) (k : ℕ × ℕ × ℕ × ℕ) (v : CQ) : ℕ → ℕ → ℕ → ℕ → CQ :=
  fun a b c d => if (a, b, c, d) = k then v else g a b c d

/-- The static table of the 8 symmetry-equivalent index quadruples of
`(p, q, r, s)` written by the two-body decode path, in source order. -/
def orbitList (p q r s : ℕ) : List (ℕ × ℕ × ℕ × ℕ) :=
  [(p, q, r, s), (q, p, r, s),
   (p, q, s, r), (q, p, s, r),
   (r, s, p, q), (s, r, p, q),
   (r, s, q, p), (s, r, q, p)]

/-- The loop `for a, b, c, d in [...]: two_body_tensor[a, b, c, d] = v` that
fills the 8 symmetry-equivalent entries of the quadruple `(p, q, r, s)`. -/
def fillOrbit (g : ℕ → ℕ → ℕ → ℕ → CQ) (p q r s : ℕ) (v : CQ) : ℕ → ℕ → ℕ → ℕ → CQ :=
  (orbitList p q r s).foldl (fun acc k => upd4 acc k v) g

/-- The list `valid_1b` of allowed one-body terms for extracted indices
`(p, q)`. -/
def valid_1b (p q : ℕ) : List FTerm :=
  [[cre_a p, des_a q], [cre_b p, des_b q]]

/-- The list `valid_2b` of allowed two-body terms for extracted indices
`(p, q, r, s)`. -/
def valid_2b (p q r s : ℕ) : List FTerm :=
  [[cre_a p, cre_a r, des_a s, des_a q],
   [cre_a p, cre_b r, des_b s, des_a q],
   [cre_b p, cre_a r, des_a s, des_b q],
   [cre_b p, cre_b r, des_b s, des_b q]]

/-- The mutable state of the decode loop of `from_fermion_operator`:
the constant, the two tensors being assembled, and the `seen_2b` set
(modelled as a list; the source never inserts into it). -/
structure DecState where
  constant : ℚ
  one_body_tensor : ℕ → ℕ → CQ
  two_body_tensor : ℕ → ℕ → ℕ → ℕ → CQ
  seen_2b : List (ℕ × ℕ × ℕ × ℕ)

/-- One iteration of the decode loop of `from_fermion_operator`, dispatching
on the length of the term exactly as the source does:

* length 0: reject a coefficient with nonzero imaginary part, else overwrite
  the constant with its real part;
* length 2: extract `(p, q)`, require membership in `valid_1b`, then
  accumulate `one_body_tensor[p, q] += 0.5 * coeff`;
* length 4: extract `(p, r, s, q)` from the four actions in order, require
  membership in `valid_2b`, then, when `(p, q, r, s)` is not in `seen_2b`,
  write `2 * coeff` into the 8 symmetry-equivalent entries (the source never
  adds the quadruple to `seen_2b` afterwards);
* any other length: reject. -/
def decodeStep (st : DecState) (tc : FTerm × CQ) : Except String DecState :=
  match tc.1 with
  | [] =>
      if tc.2.im ≠ 0 then
        Except.error "Constant term must be real."
      else
        Except.ok { st with constant := tc.2.re }
  | [a1, a2] =>
      let p := a1.2.2
      let q := a2.2.2
      if [a1, a2] ∈ valid_1b p q then
        Except.ok { st with
          one_body_tensor :=
            upd2 st.one_body_tensor p q (st.one_body_tensor p q + ofQ (1/2) * tc.2) }
      else
        Except.error "The one-body term is not of the allowed form."
  | [a1, a2, a3, a4] =>
      let p := a1.2.2
      let r := a2.2.2
      let s := a3.2.2
      let q := a4.2.2
      if [a1, a2, a3, a4] ∈ valid_2b p q r s then
        if (p, q, r, s) ∈ st.seen_2b then
          Except.ok st
        else
          Except.ok { st with
            two_body_tensor := fillOrbit st.two_body_tensor p q r s (ofQ 2 * tc.2) }
      else
        Except.error "The two-body term is not of the allowed form."
  | _ =>
      Except.error "The term is neither a constant, one-body, or two-body term."

/-- The generator `(orb for term in op for _, _, orb in term)`: every orbital
index appearing in any term key, in iteration order. -/
def termOrbs (op : FermionOp) : List ℕ :=
  op.flatMap fun tc => tc.1.map fun a => a.2.2

/-- `MolecularHamiltonian.from_fermion_operator`: derive
`norb = 1 + max(orb for term in op for _, _, orb in term)` (Python `max`
raises `ValueError` on an empty sequence), initialize zero tensors, an empty
`seen_2b` set and a zero constant, run the decode loop over the terms in
iteration order, and assemble the record. -/
def from_fermion_operator (op : FermionOp) : Except String MolecularHamiltonian := do
  let norb ←
    match termOrbs op with
    | [] => Except.error "max() arg is an empty sequence"
    | o :: os => Except.ok (1 + os.foldl max o)
  let st ← op.foldlM decodeStep ⟨0, fun _ _ => 0, fun _ _ _ _ => 0, []⟩
  Except.ok ⟨norb, st.one_body_tensor, st.two_body_tensor, st.constant⟩

/-- The record decoded from `op`, with a dummy default when decoding fails
(used only to phrase closed witness statements). -/
def decodeD (op : FermionOp) : MolecularHamiltonian :=
  (from_fermion_operator op).toOption.getD ⟨0, fun _ _ => 0, fun _ _ _ _ => 0, 0⟩

/-- numpy `iscomplexobj`: decided by the array's storage dtype alone, never by
the stored values.  A float-dtype array cannot hold a value with nonzero
imaginary part, but a complex-dtype array may hold only real values (for
example every array built by `from_fermion_operator`, which allocates its
tensors with `dtype=complex`). -/
def np_iscomplexobj (complexDtype : Bool) : Bool := complexDtype

/-- Every entry of the `n × n` array `g` is real. -/
def realValued2 (n : ℕ) (g : ℕ → ℕ → CQ) : Prop :=
  ∀ p, p < n → ∀ q, q < n → (g p q).im = 0

/-- Every entry of the `n^4` array `g` is real. -/
def realValued4 (n : ℕ) (g : ℕ → ℕ → ℕ → ℕ → CQ) : Prop :=
  ∀ p, p < n → ∀ q, q < n → ∀ r, r < n → ∀ s, s < n → (g p q r s).im = 0

/-- `MolecularHamiltonian._diag_`: raise `NotImplementedError` when
`np.iscomplexobj` holds of the two-body or the one-body tensor, else delegate
to the external CI routine `pyscf.fci.direct_nosym.make_hdiag` on the two
untouched tensors and add the constant to every entry.  The external routine
is taken as a parameter (it is outside this core); the storage dtypes of the
two arrays are passed alongside the record. -/
def MolecularHamiltonian._diag_
    (make_hdiag : (ℕ → ℕ → CQ) → (ℕ → ℕ → ℕ → ℕ → CQ) → ℕ → ℕ × ℕ → ℕ → ℚ)
    (H : MolecularHamiltonian) (oneDtypeComplex twoDtypeComplex : Bool)
    (norb : ℕ) (nelec : ℕ × ℕ) : Except String (ℕ → ℚ) :=
  if np_iscomplexobj twoDtypeComplex || np_iscomplexobj oneDtypeComplex then
    Except.error "Computing diagonal of complex molecular Hamiltonian is not yet supported."
  else
    Except.ok fun i => make_hdiag H.one_body_tensor H.two_body_tensor norb nelec i + H.constant

/-- The complex modulus, as used by numpy's closeness test. -/
noncomputable def cabs (z : CQ) : ℝ := Real.sqrt ((z.re : ℝ) ^ 2 + (z.im : ℝ) ^ 2)

/-- numpy `isclose` on complex scalars: `|x - y| <= atol + rtol * |y|`. -/
noncomputable def npIsclose (rtol atol : ℚ) (x y : CQ) : Prop :=
  cabs (x - y) ≤ (atol : ℝ) + (rtol : ℝ) * cabs y

/-- numpy `isclose` on real scalars (the constants of the records). -/
def npIscloseQ (rtol atol : ℚ) (x y : ℚ) : Prop :=
  |x - y| ≤ atol + rtol * |y|

/-- numpy `allclose` on two `n × n` complex arrays. -/
noncomputable def npAllclose2 (rtol atol : ℚ) (n : ℕ) (f g : ℕ → ℕ → CQ) : Prop :=
  ∀ p, p < n → ∀ q, q < n → npIsclose rtol atol (f p q) (g p q)

/-- numpy `allclose` on two `n^4` complex arrays. -/
noncomputable def npAllclose4 (rtol atol : ℚ) (n : ℕ)
    (f g : ℕ → ℕ → ℕ → ℕ → CQ) : Prop :=
  ∀ p, p < n → ∀ q, q < n → ∀ r, r < n → ∀ s, s < n →
    npIsclose rtol atol (f p q r s) (g p q r s)

open Classical in
/-- `MolecularHamiltonian._approx_eq_`: when `other` is a
`MolecularHamiltonian`, compare the constant, then the one-body tensor, then
the two-body tensor with `np.allclose`, returning `False` at the first
failure and `True` otherwise; when `other` is any other object, return the
`NotImplemented` sentinel (modelled as `none`) so the caller can try the
reflected comparison. -/
noncomputable def MolecularHamiltonian._approx_eq_ (a : MolecularHamiltonian)
    (other : Option MolecularHamiltonian) (rtol atol : ℚ) : Option Bool :=
  match other with
  | some b =>
      if ¬ npIscloseQ rtol atol a.constant b.constant then some false
      else if ¬ npAllclose2 rtol atol a.norb a.one_body_tensor b.one_body_tensor then some false
      else if ¬ npAllclose4 rtol atol a.norb a.two_body_tensor b.two_body_tensor then some false
      else some true
  | none => none

/-- The three generating equalities of the 8-fold two-body symmetry, required
of every index quadruple: swapping the first index pair, swapping the second
index pair, and swapping the two pairs. -/
def Sym8 (g : ℕ → ℕ → ℕ → ℕ → CQ) : Prop :=
  ∀ a b c d, g b a c d = g a b c d ∧ g a b d c = g a b c d ∧ g c d a b = g a b c d

/-- The 8-fold index-permutation symmetry of an `n^4` two-body array, stated
on the array's extent as the seven permutation equalities of the spec. -/
def EightFoldSym (n : ℕ) (g : ℕ → ℕ → ℕ → ℕ → CQ) : Prop :=
  ∀ p, p < n → ∀ q, q < n → ∀ r, r < n → ∀ s, s < n →
    g q p r s = g p q r s ∧ g p q s r = g p q r s ∧ g q p s r = g p q r s ∧
    g r s p q = g p q r s ∧ g s r p q = g p q r s ∧ g r s q p = g p q r s ∧
    g s r q p = g p q r s

/-- A (term, coefficient) pair that `from_fermion_operator` rejects: a term
whose length is not 0, 2 or 4; a constant term with nonzero imaginary part; a
one-body term outside `valid_1b`; a two-body term outside `valid_2b` (indices
extracted in the fixed create(p), create(r), annihilate(s), annihilate(q)
order). -/
def isBadTerm (tc : FTerm × CQ) : Bool :=
  match tc.1 with
  | [] => decide (tc.2.im ≠ 0)
  | [a1, a2] => decide ([a1, a2] ∉ valid_1b a1.2.2 a2.2.2)
  | [a1, a2, a3, a4] => decide ([a1, a2, a3, a4] ∉ valid_2b a1.2.2 a4.2.2 a2.2.2 a3.2.2)
  | _ => true

/-- The concrete record of the spec's worked example: `norb = 1`,
`one_body_tensor = [[2.0]]`, zero two-body tensor, zero constant. -/
def exampleRecord : MolecularHamiltonian :=
  ⟨1, fun _ _ => ofQ 2, fun _ _ _ _ => 0, 0⟩

/-- A term map holding two valid two-body terms over the same literal index
quadruple `(0, 0, 0, 0)` but different coefficients: the alpha-alpha variant
with coefficient `1.0` first, then the alpha-beta variant with `3.0`. -/
def dupQuadOp : FermionOp :=
  [([cre_a 0, cre_a 0, des_a 0, des_a 0], ofQ 1),
   ([cre_a 0, cre_b 0, des_b 0, des_a 0], ofQ 3)]

/-- A term map containing a 3-action term (a validation-failure input). -/
def threeActionOp : FermionOp :=
  [([cre_a 0, des_a 0], ofQ 1),
   ([cre_a 1, cre_a 0, des_a 0], ofQ 1)]

/-- A term map holding only the empty constant term: no term carries any
action. -/
def constOnlyOp : FermionOp := [(([] : FTerm), ofQ 5)]

/-- A placeholder for the external CI diagonal routine. -/
def mkHdiag0 : (ℕ → ℕ → CQ) → (ℕ → ℕ → ℕ → ℕ → CQ) → ℕ → ℕ × ℕ → ℕ → ℚ :=
  fun _ _ _ _ _ => 0

/-- A record with purely real tensor values (as produced, with complex
storage dtype, by `from_fermion_operator`). -/
def realValuedRecord : MolecularHamiltonian :=
  ⟨1, fun _ _ => ofQ 2, fun _ _ _ _ => ofQ 3, 1⟩

/-- The empty (`norb = 0`) record with constant `5.0`. -/
def emptyRecord : MolecularHamiltonian :=
  ⟨0, fun _ _ => 0, fun _ _ _ _ => 0, 5⟩

/-- A concrete `norb = 1` record with a real 8-fold-symmetric two-body
tensor, used to witness the round-trip theorem. -/
def roundTripRecord : MolecularHamiltonian :=
  ⟨1, fun _ _ => ⟨7, 1⟩, fun _ _ _ _ => ofQ 3, 5⟩

/-- A concrete `norb = 2` record used to witness the rotation-identity
theorem. -/
def rotationRecord : MolecularHamiltonian :=
  ⟨2, fun p q => ⟨p + q, 1⟩, fun p q r s => ⟨p + q + r + s, 0⟩, 4⟩

/-- A term map with a single valid (alpha-alpha) two-body term on the index
quadruple `(p, q, r, s) = (0, 1, 1, 0)` and a complex coefficient. -/
def symWitnessOp : FermionOp :=
  [([cre_a 0, cre_a 1, des_a 0, des_a 1], ⟨2, 5⟩)]

/-! ### Basic lemmas about the 8-fold orbit write -/

theorem foldl_upd4_const (v : CQ) (L : List (ℕ × ℕ × ℕ × ℕ)) :
    ∀ g a b c d, (L.foldl (fun acc k => upd4 acc k v) g) a b c d =
      if (a, b, c, d) ∈ L then v else g a b c d := by
  induction L with
  | nil => intro g a b c d; simp
  | cons k L ih =>
      intro g a b c d
      rw [List.foldl_cons, ih]
      by_cases h1 : (a, b, c, d) ∈ L
      · simp [h1]
      · by_cases h2 : (a, b, c, d) = k <;> simp [upd4, h1, h2]

theorem fillOrbit_apply (g : ℕ → ℕ → ℕ → ℕ → CQ) (p q r s : ℕ) (v : CQ) (a b c d : ℕ) :
    fillOrbit g p q r s v a b c d =
      if (a, b, c, d) ∈ orbitList p q r s then v else g a b c d :=
  foldl_upd4_const v (orbitList p q r s) g a b c d

theorem fillOrbit_idem (g : ℕ → ℕ → ℕ → ℕ → CQ) (p q r s : ℕ) (v : CQ) :
    fillOrbit (fillOrbit g p q r s v) p q r s v = fillOrbit g p q r s v := by
  funext a b c d
  rw [fillOrbit_apply, fillOrbit_apply]
  by_cases h : (a, b, c, d) ∈ orbitList p q r s <;> simp [h]

theorem orbitList_swap_first (p q r s a b c d : ℕ) :
    (b, a, c, d) ∈ orbitList p q r s ↔ (a, b, c, d) ∈ orbitList p q r s := by
  constructor <;> intro h <;>
    simp only [orbitList, List.mem_cons, List.not_mem_nil, or_false, Prod.mk.injEq] at h ⊢ <;>
    rcases h with ⟨rfl,rfl,rfl,rfl⟩|⟨rfl,rfl,rfl,rfl⟩|⟨rfl,rfl,rfl,rfl⟩|⟨rfl,rfl,rfl,rfl⟩|⟨rfl,rfl,rfl,rfl⟩|⟨rfl,rfl,rfl,rfl⟩|⟨rfl,rfl,rfl,rfl⟩|⟨rfl,rfl,rfl,rfl⟩ <;> simp

theorem orbitList_swap_second (p q r s a b c d : ℕ) :
    (a, b, d, c) ∈ orbitList p q r s ↔ (a, b, c, d) ∈ orbitList p q r s := by
  constructor <;> intro h <;>
    simp only [orbitList, List.mem_cons, List.not_mem_nil, or_false, Prod.mk.injEq] at h ⊢ <;>
    rcases h with ⟨rfl,rfl,rfl,rfl⟩|⟨rfl,rfl,rfl,rfl⟩|⟨rfl,rfl,rfl,rfl⟩|⟨rfl,rfl,rfl,rfl⟩|⟨rfl,rfl,rfl,rfl⟩|⟨rfl,rfl,rfl,rfl⟩|⟨rfl,rfl,rfl,rfl⟩|⟨rfl,rfl,rfl,rfl⟩ <;> simp

theorem orbitList_swap_pairs (p q r s a b c d : ℕ) :
    (c, d, a, b) ∈ orbitList p q r s ↔ (a, b, c, d) ∈ orbitList p q r s := by
  constructor <;> intro h <;>
    simp only [orbitList, List.mem_cons, List.not_mem_nil, or_false, Prod.mk.injEq] at h ⊢ <;>
    rcases h with ⟨rfl,rfl,rfl,rfl⟩|⟨rfl,rfl,rfl,rfl⟩|⟨rfl,rfl,rfl,rfl⟩|⟨rfl,rfl,rfl,rfl⟩|⟨rfl,rfl,rfl,rfl⟩|⟨rfl,rfl,rfl,rfl⟩|⟨rfl,rfl,rfl,rfl⟩|⟨rfl,rfl,rfl,rfl⟩ <;> simp

theorem sym8_fillOrbit {g : ℕ → ℕ → ℕ → ℕ → CQ} (hg : Sym8 g)
    (p q r s : ℕ) (v : CQ) : Sym8 (fillOrbit g p q r s v) := by
  intro a b c d
  simp only [fillOrbit_apply, orbitList_swap_first, orbitList_swap_second,
    orbitList_swap_pairs]
  by_cases h : (a, b, c, d) ∈ orbitList p q r s <;>
    simp [h, (hg a b c d).1, (hg a b c d).2.1, (hg a b c d).2.2]

/-! ### Evaluation lemmas for single decode steps -/

theorem decodeStep_const (st : DecState) (c : ℚ) :
    decodeStep st (([] : FTerm), ofQ c) = Except.ok { st with constant := c } := by
  simp [decodeStep]

theorem decodeStep_one_a (st : DecState) (p q : ℕ) (c : CQ) :
    decodeStep st ([cre_a p, des_a q], c) =
      Except.ok { st with
        one_body_tensor :=
          upd2 st.one_body_tensor p q (st.one_body_tensor p q + ofQ (1/2) * c) } := by
  simp [decodeStep, valid_1b, cre_a, des_a]

theorem decodeStep_one_b (st : DecState) (p q : ℕ) (c : CQ) :
    decodeStep st ([cre_b p, des_b q], c) =
      Except.ok { st with
        one_body_tensor :=
          upd2 st.one_body_tensor p q (st.one_body_tensor p q + ofQ (1/2) * c) } := by
  simp [decodeStep, valid_1b, cre_b, des_b]

theorem decodeStep_two_aa (st : DecState) (p q r s : ℕ) (c : CQ)
    (hseen : st.seen_2b = []) :
    decodeStep st ([cre_a p, cre_a r, des_a s, des_a q], c) =
      Except.ok { st with
        two_body_tensor := fillOrbit st.two_body_tensor p q r s (ofQ 2 * c) } := by
  simp [decodeStep, valid_2b, cre_a, cre_b, des_a, des_b, hseen]

theorem decodeStep_two_ab (st : DecState) (p q r s : ℕ) (c : CQ)
    (hseen : st.seen_2b = []) :
    decodeStep st ([cre_a p, cre_b r, des_b s, des_a q], c) =
      Except.ok { st with
        two_body_tensor := fillOrbit st.two_body_tensor p q r s (ofQ 2 * c) } := by
  simp [decodeStep, valid_2b, cre_a, cre_b, des_a, des_b, hseen]

theorem decodeStep_two_ba (st : DecState) (p q r s : ℕ) (c : CQ)
    (hseen : st.seen_2b = []) :
    decodeStep st ([cre_b p, cre_a r, des_a s, des_b q], c) =
      Except.ok { st with
        two_body_tensor := fillOrbit st.two_body_tensor p q r s (ofQ 2 * c) } := by
  simp [decodeStep, valid_2b, cre_a, cre_b, des_a, des_b, hseen]

theorem decodeStep_two_bb (st : DecState) (p q r s : ℕ) (c : CQ)
    (hseen : st.seen_2b = []) :
    decodeStep st ([cre_b p, cre_b r, des_b s, des_b q], c) =
      Except.ok { st with
        two_body_tensor := fillOrbit st.two_body_tensor p q r s (ofQ 2 * c) } := by
  simp [decodeStep, valid_2b, cre_a, cre_b, des_a, des_b, hseen]

/-! ### The decode loop preserves the 8-fold symmetry of the two-body tensor -/

theorem decodeStep_sym {st st' : DecState} {tc : FTerm × CQ}
    (h : decodeStep st tc = Except.ok st') (hs : Sym8 st.two_body_tensor) :
    Sym8 st'.two_body_tensor := by
  obtain ⟨t, c⟩ := tc
  rcases t with _ | ⟨a1, _ | ⟨a2, _ | ⟨a3, _ | ⟨a4, _ | ⟨a5, t⟩⟩⟩⟩⟩
  · simp only [decodeStep] at h
    split_ifs at h
    simp only [Except.ok.injEq] at h
    subst h
    exact hs
  · simp only [decodeStep] at h
    exact Except.noConfusion h
  · simp only [decodeStep] at h
    split_ifs at h
    simp only [Except.ok.injEq] at h
    subst h
    exact hs
  · simp only [decodeStep] at h
    exact Except.noConfusion h
  · simp only [decodeStep] at h
    split_ifs at h
    · simp only [Except.ok.injEq] at h
      subst h
      exact hs
    · simp only [Except.ok.injEq] at h
      subst h
      exact sym8_fillOrbit hs _ _ _ _ _
  · simp only [decodeStep] at h
    exact Except.noConfusion h

theorem foldlM_decode_sym (op : FermionOp) :
    ∀ st st', op.foldlM decodeStep st = Except.ok st' →
      Sym8 st.two_body_tensor → Sym8 st'.two_body_tensor := by
  induction op with
  | nil =>
      intro st st' h hs
      simp only [List.foldlM_nil] at h
      simp only [pure, Except.pure, Except.ok.injEq] at h
      subst h
      exact hs
  | cons t ts ih =>
      intro st st' h hs
      rw [List.foldlM_cons] at h
      cases h1 : decodeStep st t with
      | error e =>
          rw [h1] at h
          exact Except.noConfusion h
      | ok st1 =>
          rw [h1] at h
          exact ih st1 st' h (decodeStep_sym h1 hs)

/-- The initial decode state: zero constant, zero tensors, empty `seen_2b`. -/
def initState : DecState := ⟨0, fun _ _ => 0, fun _ _ _ _ => 0, []⟩

theorem from_fermion_operator_ok {op : FermionOp} {H : MolecularHamiltonian}
    (h : from_fermion_operator op = Except.ok H) :
    ∃ o os st, termOrbs op = o :: os ∧
      op.foldlM decodeStep initState = Except.ok st ∧
      H = ⟨1 + os.foldl max o, st.one_body_tensor, st.two_body_tensor, st.constant⟩ := by
  unfold from_fermion_operator at h
  cases ht : termOrbs op with
  | nil =>
      rw [ht] at h
      exact Except.noConfusion h
  | cons o os =>
      rw [ht] at h
      cases h2 : op.foldlM decodeStep initState with
      | error e =>
          rw [show (⟨0, fun _ _ => 0, fun _ _ _ _ => 0, []⟩ : DecState) = initState from rfl,
            h2] at h
          exact Except.noConfusion h
      | ok st =>
          rw [show (⟨0, fun _ _ => 0, fun _ _ _ _ => 0, []⟩ : DecState) = initState from rfl,
            h2] at h
          have h3 : Except.ok (⟨1 + os.foldl max o, st.one_body_tensor, st.two_body_tensor,
              st.constant⟩ : MolecularHamiltonian) = Except.ok H := h
          simp only [Except.ok.injEq] at h3
          exact ⟨o, os, st, rfl, rfl, h3.symm⟩

theorem from_fermion_operator_eq {op : FermionOp} {o : ℕ} {os : List ℕ}
    (ht : termOrbs op = o :: os) {st : DecState}
    (hf : op.foldlM decodeStep initState = Except.ok st) :
    from_fermion_operator op =
      Except.ok ⟨1 + os.foldl max o, st.one_body_tensor, st.two_body_tensor, st.constant⟩ := by
  unfold from_fermion_operator
  rw [ht, show (⟨0, fun _ _ => 0, fun _ _ _ _ => 0, []⟩ : DecState) = initState from rfl, hf]
  rfl

theorem sym8_initState : Sym8 initState.two_body_tensor := by
  intro a b c d
  exact ⟨rfl, rfl, rfl⟩

theorem sym8_seven {g : ℕ → ℕ → ℕ → ℕ → CQ} (hg : Sym8 g) (p q r s : ℕ) :
    g q p r s = g p q r s ∧ g p q s r = g p q r s ∧ g q p s r = g p q r s ∧
    g r s p q = g p q r s ∧ g s r p q = g p q r s ∧ g r s q p = g p q r s ∧
    g s r q p = g p q r s := by
  refine ⟨(hg p q r s).1, (hg p q r s).2.1,
    (hg p q s r).1.trans (hg p q r s).2.1,
    (hg p q r s).2.2,
    (hg r s p q).1.trans (hg p q r s).2.2,
    (hg r s p q).2.1.trans (hg p q r s).2.2,
    ((hg r s q p).1.trans (hg r s p q).2.1).trans (hg p q r s).2.2⟩

/-! ### Folding the encoder's sections through the decode loop -/

theorem ok_bind {α β : Type} (a : α) (k : α → Except String β) :
    (Except.ok a >>= k) = k a := rfl

theorem foldlM_cons_ok {st st1 : DecState} {t : FTerm × CQ} {ts : FermionOp}
    (h : decodeStep st t = Except.ok st1) :
    (t :: ts).foldlM decodeStep st = ts.foldlM decodeStep st1 := by
  rw [List.foldlM_cons, h, ok_bind]

theorem upd2_twice_half (g : ℕ → ℕ → CQ) (p q : ℕ) (c : CQ) :
    upd2 (upd2 g p q (g p q + ofQ (1/2) * c)) p q
        ((upd2 g p q (g p q + ofQ (1/2) * c)) p q + ofQ (1/2) * c) =
      upd2 g p q (g p q + c) := by
  funext a b
  simp only [upd2]
  by_cases h : (a, b) = (p, q)
  · rw [if_pos h, if_pos h]
    simp only [if_true]
    rw [add_assoc, ofQ_half_add_ofQ_half]
  · rw [if_neg h, if_neg h, if_neg h]

theorem pure_eq_ok {α : Type} (a : α) : (pure a : Except String α) = Except.ok a := rfl

theorem ofQ_inv_two_add (c : CQ) : ofQ 2⁻¹ * c + ofQ 2⁻¹ * c = c := by
  rw [show ((2 : ℚ)⁻¹) = 1/2 from (one_div (2 : ℚ)).symm]
  exact ofQ_half_add_ofQ_half c

theorem ofQ_two_mul_inv (c : CQ) : ofQ 2 * (ofQ 2⁻¹ * c) = c := by
  rw [show ((2 : ℚ)⁻¹) = 1/2 from (one_div (2 : ℚ)).symm]
  exact ofQ_two_mul_ofQ_half c

theorem upd2_twice_inv (g : ℕ → ℕ → CQ) (p q : ℕ) (c : CQ) :
    upd2 (upd2 g p q (g p q + ofQ 2⁻¹ * c)) p q
        ((upd2 g p q (g p q + ofQ 2⁻¹ * c)) p q + ofQ 2⁻¹ * c) =
      upd2 g p q (g p q + c) := by
  rw [show ((2 : ℚ)⁻¹) = 1/2 from (one_div (2 : ℚ)).symm]
  exact upd2_twice_half g p q c

theorem foldlM_decode_oneBlock (h1 : ℕ → ℕ → CQ) (pq : ℕ × ℕ) (st : DecState) :
    (oneBodyBlock h1 pq).foldlM decodeStep st =
      Except.ok { st with
        one_body_tensor :=
          upd2 st.one_body_tensor pq.1 pq.2
            (st.one_body_tensor pq.1 pq.2 + h1 pq.1 pq.2) } := by
  obtain ⟨p, q⟩ := pq
  simp only [oneBodyBlock, List.foldlM_cons, List.foldlM_nil, decodeStep_one_a,
    decodeStep_one_b, ok_bind]
  simp [upd2_twice_inv, pure_eq_ok]

theorem foldlM_decode_twoBlock (h2 : ℕ → ℕ → ℕ → ℕ → CQ) (k : ℕ × ℕ × ℕ × ℕ)
    (st : DecState) (hseen : st.seen_2b = []) :
    (twoBodyBlock h2 k).foldlM decodeStep st =
      Except.ok { st with
        two_body_tensor :=
          fillOrbit st.two_body_tensor k.1 k.2.1 k.2.2.1 k.2.2.2
            (h2 k.1 k.2.1 k.2.2.1 k.2.2.2) } := by
  obtain ⟨p, q, r, s⟩ := k
  simp only [twoBodyBlock, List.foldlM_cons, List.foldlM_nil, decodeStep_two_aa,
    decodeStep_two_ab, decodeStep_two_ba, decodeStep_two_bb, ok_bind, hseen]
  simp [fillOrbit_idem, ofQ_two_mul_inv, pure_eq_ok]

theorem foldlM_decode_oneSection (h1 : ℕ → ℕ → CQ) (P : List (ℕ × ℕ)) :
    ∀ st : DecState, (P.flatMap (oneBodyBlock h1)).foldlM decodeStep st =
      Except.ok { st with
        one_body_tensor :=
          P.foldl (fun g pq => upd2 g pq.1 pq.2 (g pq.1 pq.2 + h1 pq.1 pq.2))
            st.one_body_tensor } := by
  induction P with
  | nil => intro st; rfl
  | cons pq P ih =>
      intro st
      rw [List.flatMap_cons, List.foldlM_append, foldlM_decode_oneBlock, ok_bind, ih,
        List.foldl_cons]

theorem foldlM_decode_twoSection (h2 : ℕ → ℕ → ℕ → ℕ → CQ) (Q : List (ℕ × ℕ × ℕ × ℕ)) :
    ∀ st : DecState, st.seen_2b = [] →
      (Q.flatMap (twoBodyBlock h2)).foldlM decodeStep st =
        Except.ok { st with
          two_body_tensor :=
            Q.foldl (fun g k => fillOrbit g k.1 k.2.1 k.2.2.1 k.2.2.2
              (h2 k.1 k.2.1 k.2.2.1 k.2.2.2)) st.two_body_tensor } := by
  induction Q with
  | nil => intro st _; rfl
  | cons k Q ih =>
      intro st hseen
      rw [List.flatMap_cons, List.foldlM_append, foldlM_decode_twoBlock h2 k st hseen,
        ok_bind,
        ih ⟨st.constant, st.one_body_tensor,
          fillOrbit st.two_body_tensor k.1 k.2.1 k.2.2.1 k.2.2.2
            (h2 k.1 k.2.1 k.2.2.1 k.2.2.2), st.seen_2b⟩ hseen]
      simp [List.foldl_cons]

/-! ### Entrywise description of the pure tensor folds -/

theorem foldl_one_entries (h1 : ℕ → ℕ → CQ) (P : List (ℕ × ℕ)) (hP : P.Nodup) :
    ∀ (g : ℕ → ℕ → CQ) (a b : ℕ),
      (P.foldl (fun g pq => upd2 g pq.1 pq.2 (g pq.1 pq.2 + h1 pq.1 pq.2)) g) a b =
        if (a, b) ∈ P then g a b + h1 a b else g a b := by
  induction P with
  | nil => intro g a b; simp
  | cons pq P ih =>
      intro g a b
      obtain ⟨p, q⟩ := pq
      rw [List.foldl_cons, ih (hP.of_cons)]
      by_cases h : (a, b) = (p, q)
      · obtain ⟨h1', h2'⟩ := Prod.mk.injEq .. ▸ h
        subst h1'; subst h2'
        have hnot : (a, b) ∉ P := by
          intro hmem
          exact (List.nodup_cons.mp hP).1 hmem
        simp [hnot, upd2]
      · by_cases hmem : (a, b) ∈ P <;> simp [upd2, h, hmem, List.mem_cons]

theorem foldl_two_entries (h2 : ℕ → ℕ → ℕ → ℕ → CQ) (Q : List (ℕ × ℕ × ℕ × ℕ))
    (horb : ∀ k ∈ Q, ∀ a b c d, (a, b, c, d) ∈ orbitList k.1 k.2.1 k.2.2.1 k.2.2.2 →
      h2 a b c d = h2 k.1 k.2.1 k.2.2.1 k.2.2.2) :
    ∀ (g : ℕ → ℕ → ℕ → ℕ → CQ) (a b c d : ℕ),
      ((∃ k ∈ Q, (a, b, c, d) ∈ orbitList k.1 k.2.1 k.2.2.1 k.2.2.2) →
        (Q.foldl (fun g k => fillOrbit g k.1 k.2.1 k.2.2.1 k.2.2.2
          (h2 k.1 k.2.1 k.2.2.1 k.2.2.2)) g) a b c d = h2 a b c d) ∧
      ((¬ ∃ k ∈ Q, (a, b, c, d) ∈ orbitList k.1 k.2.1 k.2.2.1 k.2.2.2) →
        (Q.foldl (fun g k => fillOrbit g k.1 k.2.1 k.2.2.1 k.2.2.2
          (h2 k.1 k.2.1 k.2.2.1 k.2.2.2)) g) a b c d = g a b c d) := by
  induction Q with
  | nil =>
      intro g a b c d
      constructor
      · rintro ⟨k, hk, -⟩
        exact absurd hk (List.not_mem_nil k)
      · intro _
        simp
  | cons k0 Q ih =>
      intro g a b c d
      have horb' : ∀ k ∈ Q, ∀ a b c d,
          (a, b, c, d) ∈ orbitList k.1 k.2.1 k.2.2.1 k.2.2.2 →
            h2 a b c d = h2 k.1 k.2.1 k.2.2.1 k.2.2.2 :=
        fun k hk => horb k (List.mem_cons_of_mem _ hk)
      rw [List.foldl_cons]
      set g1 := fillOrbit g k0.1 k0.2.1 k0.2.2.1 k0.2.2.2
        (h2 k0.1 k0.2.1 k0.2.2.1 k0.2.2.2) with hg1
      constructor
      · rintro ⟨k, hk, hkorb⟩
        rcases List.mem_cons.mp hk with rfl | hkQ
        · by_cases hcov : ∃ k' ∈ Q, (a, b, c, d) ∈ orbitList k'.1 k'.2.1 k'.2.2.1 k'.2.2.2
          · exact (ih horb' g1 a b c d).1 hcov
          · rw [(ih horb' g1 a b c d).2 hcov, hg1, fillOrbit_apply, if_pos hkorb]
            exact (horb k (List.mem_cons_self k Q) a b c d hkorb).symm
        · exact (ih horb' g1 a b c d).1 ⟨k, hkQ, hkorb⟩
      · intro hnone
        have hnotQ : ¬ ∃ k' ∈ Q, (a, b, c, d) ∈ orbitList k'.1 k'.2.1 k'.2.2.1 k'.2.2.2 := by
          rintro ⟨k', hk', ho⟩
          exact hnone ⟨k', List.mem_cons_of_mem _ hk', ho⟩
        have hnot0 : (a, b, c, d) ∉ orbitList k0.1 k0.2.1 k0.2.2.1 k0.2.2.2 := by
          intro ho
          exact hnone ⟨k0, List.mem_cons_self k0 Q, ho⟩
        rw [(ih horb' g1 a b c d).2 hnotQ, hg1, fillOrbit_apply, if_neg hnot0]

/-! ### Iteration-space facts and Python `max` -/

theorem mem_pyProduct2 (n a b : ℕ) : (a, b) ∈ pyProduct2 n ↔ a < n ∧ b < n := by
  simp [pyProduct2, List.mem_product]

theorem nodup_pyProduct2 (n : ℕ) : (pyProduct2 n).Nodup :=
  List.Nodup.product (List.nodup_range n) (List.nodup_range n)

theorem mem_pyProduct4 (n a b c d : ℕ) :
    (a, b, c, d) ∈ pyProduct4 n ↔ a < n ∧ b < n ∧ c < n ∧ d < n := by
  simp [pyProduct4, List.mem_product]

theorem nodup_pyProduct4 (n : ℕ) : (pyProduct4 n).Nodup :=
  List.Nodup.product (List.nodup_range n)
    (List.Nodup.product (List.nodup_range n)
      (List.Nodup.product (List.nodup_range n) (List.nodup_range n)))

theorem foldl_max_init_le (os : List ℕ) : ∀ o : ℕ, o ≤ os.foldl max o := by
  induction os with
  | nil => intro o; simp
  | cons y os ih =>
      intro o
      rw [List.foldl_cons]
      exact le_trans (le_max_left o y) (ih (max o y))

theorem foldl_max_mem_le (os : List ℕ) : ∀ o x, x ∈ os → x ≤ os.foldl max o := by
  induction os with
  | nil => intro o x hx; cases hx
  | cons y os ih =>
      intro o x hx
      rw [List.foldl_cons]
      rcases List.mem_cons.mp hx with rfl | hx
      · exact le_trans (le_max_right o x) (foldl_max_init_le os (max o x))
      · exact ih (max o y) x hx

theorem foldl_max_le (os : List ℕ) : ∀ o m, o ≤ m → (∀ x ∈ os, x ≤ m) →
    os.foldl max o ≤ m := by
  induction os with
  | nil => intro o m ho _; simpa using ho
  | cons y os ih =>
      intro o m ho hall
      rw [List.foldl_cons]
      exact ih (max o y) m (max_le ho (hall y (List.mem_cons_self y os)))
        fun x hx => hall x (List.mem_cons_of_mem _ hx)

theorem foldl_max_eq {o m : ℕ} {os : List ℕ} (hmem : m ∈ o :: os)
    (hub : ∀ x ∈ o :: os, x ≤ m) : os.foldl max o = m := by
  refine le_antisymm (foldl_max_le os o m (hub o (List.mem_cons_self o os))
    fun x hx => hub x (List.mem_cons_of_mem _ hx)) ?_
  rcases List.mem_cons.mp hmem with rfl | hmem
  · exact foldl_max_init_le os m
  · exact foldl_max_mem_le os o m hmem

/-! ### The orbital indices appearing in an encoded operator -/

theorem termOrbs_encode_lt (H : MolecularHamiltonian) (x : ℕ)
    (hx : x ∈ termOrbs H._fermion_operator_) : x < H.norb := by
  simp only [termOrbs, MolecularHamiltonian._fermion_operator_, List.flatMap_cons,
    List.map_nil, List.nil_append, List.flatMap_append, List.mem_append,
    List.mem_flatMap, oneBodyBlock, twoBodyBlock, List.mem_cons, List.not_mem_nil,
    or_false, List.mem_map, cre_a, cre_b, des_a, des_b] at hx
  rcases hx with ⟨tc, ⟨⟨p, q⟩, hpq, htc⟩, ⟨a, ha, rfl⟩⟩ | ⟨tc, ⟨⟨p, q, r, s⟩, hk, htc⟩, ⟨a, ha, rfl⟩⟩
  · rw [mem_pyProduct2] at hpq
    rcases htc with rfl | rfl <;> simp at ha <;> rcases ha with rfl | rfl <;>
      dsimp only <;> omega
  · rw [mem_pyProduct4] at hk
    rcases htc with rfl | rfl | rfl | rfl <;> simp at ha <;>
      rcases ha with rfl | rfl | rfl | rfl <;> dsimp only <;> omega

theorem max_orb_mem (H : MolecularHamiltonian) (hn : 1 ≤ H.norb) :
    H.norb - 1 ∈ termOrbs H._fermion_operator_ := by
  refine List.mem_flatMap.mpr
    ⟨([cre_a (H.norb - 1), des_a (H.norb - 1)],
      H.one_body_tensor (H.norb - 1) (H.norb - 1)), ?_, by simp [cre_a, des_a]⟩
  refine List.mem_cons_of_mem _ (List.mem_append_left _ ?_)
  refine List.mem_flatMap.mpr ⟨(H.norb - 1, H.norb - 1), ?_, ?_⟩
  · rw [mem_pyProduct2]
    omega
  · simp [oneBodyBlock]

theorem termOrbs_encode_spec (H : MolecularHamiltonian) (hn : 1 ≤ H.norb) :
    ∃ o os, termOrbs H._fermion_operator_ = o :: os ∧ 1 + os.foldl max o = H.norb := by
  cases ht : termOrbs H._fermion_operator_ with
  | nil =>
      have hm := max_orb_mem H hn
      rw [ht] at hm
      cases hm
  | cons o os =>
      refine ⟨o, os, rfl, ?_⟩
      have hm : H.norb - 1 ∈ o :: os := ht ▸ max_orb_mem H hn
      have hub : ∀ x ∈ o :: os, x ≤ H.norb - 1 := by
        intro x hx
        have := termOrbs_encode_lt H x (ht ▸ hx)
        omega
      rw [foldl_max_eq hm hub]
      omega

/-! ### Decoding an encoded operator -/

theorem decode_encode_state (H : MolecularHamiltonian) :
    H._fermion_operator_.foldlM decodeStep initState =
      Except.ok ⟨H.constant,
        (pyProduct2 H.norb).foldl
          (fun g pq => upd2 g pq.1 pq.2 (g pq.1 pq.2 + H.one_body_tensor pq.1 pq.2))
          (fun _ _ => 0),
        (pyProduct4 H.norb).foldl
          (fun g k => fillOrbit g k.1 k.2.1 k.2.2.1 k.2.2.2
            (H.two_body_tensor k.1 k.2.1 k.2.2.1 k.2.2.2))
          (fun _ _ _ _ => 0),
        []⟩ := by
  rw [MolecularHamiltonian._fermion_operator_,
    foldlM_cons_ok (decodeStep_const initState H.constant), List.foldlM_append]
  rw [show ({ initState with constant := H.constant } : DecState) =
    (⟨H.constant, fun _ _ => 0, fun _ _ _ _ => 0, []⟩ : DecState) from rfl]
  rw [foldlM_decode_oneSection H.one_body_tensor (pyProduct2 H.norb)
    (⟨H.constant, fun _ _ => 0, fun _ _ _ _ => 0, []⟩ : DecState), ok_bind]
  rw [show ({ (⟨H.constant, fun _ _ => 0, fun _ _ _ _ => 0, []⟩ : DecState) with
      one_body_tensor := (pyProduct2 H.norb).foldl
        (fun g pq => upd2 g pq.1 pq.2 (g pq.1 pq.2 + H.one_body_tensor pq.1 pq.2))
        (⟨H.constant, fun _ _ => 0, fun _ _ _ _ => 0, []⟩ : DecState).one_body_tensor } :
      DecState) =
    (⟨H.constant,
      (pyProduct2 H.norb).foldl
        (fun g pq => upd2 g pq.1 pq.2 (g pq.1 pq.2 + H.one_body_tensor pq.1 pq.2))
        (fun _ _ => 0),
      fun _ _ _ _ => 0, []⟩ : DecState) from rfl]
  rw [foldlM_decode_twoSection H.two_body_tensor (pyProduct4 H.norb)
    (⟨H.constant,
      (pyProduct2 H.norb).foldl
        (fun g pq => upd2 g pq.1 pq.2 (g pq.1 pq.2 + H.one_body_tensor pq.1 pq.2))
        (fun _ _ => 0),
      fun _ _ _ _ => 0, []⟩ : DecState) rfl]

theorem eightfold_orbit {n : ℕ} {T : ℕ → ℕ → ℕ → ℕ → CQ} (hsym : EightFoldSym n T) :
    ∀ k ∈ pyProduct4 n, ∀ a b c d,
      (a, b, c, d) ∈ orbitList k.1 k.2.1 k.2.2.1 k.2.2.2 →
        T a b c d = T k.1 k.2.1 k.2.2.1 k.2.2.2 := by
  rintro ⟨p, q, r, s⟩ hk a b c d ho
  rw [mem_pyProduct4] at hk
  obtain ⟨hp, hq, hr, hs⟩ := hk
  have h7 := hsym p hp q hq r hr s hs
  simp only [orbitList, List.mem_cons, List.not_mem_nil, or_false, Prod.mk.injEq] at ho
  rcases ho with ⟨rfl, rfl, rfl, rfl⟩ | ⟨rfl, rfl, rfl, rfl⟩ | ⟨rfl, rfl, rfl, rfl⟩ |
    ⟨rfl, rfl, rfl, rfl⟩ | ⟨rfl, rfl, rfl, rfl⟩ | ⟨rfl, rfl, rfl, rfl⟩ |
    ⟨rfl, rfl, rfl, rfl⟩ | ⟨rfl, rfl, rfl, rfl⟩
  · rfl
  · exact h7.1
  · exact h7.2.1
  · exact h7.2.2.1
  · exact h7.2.2.2.1
  · exact h7.2.2.2.2.1
  · exact h7.2.2.2.2.2.1
  · exact h7.2.2.2.2.2.2

/-! ### Rotation by the identity matrix -/

theorem conjC_one : conjC 1 = 1 := by ext <;> simp
theorem conjC_zero : conjC 0 = 0 := by ext <;> simp

theorem conjC_idMat (i j : ℕ) : conjC (idMat i j) = idMat i j := by
  by_cases h : i = j <;> simp [idMat, h, conjC_one, conjC_zero]

theorem sum2_delta (n A B : ℕ) (hA : A < n) (hB : B < n) (f : ℕ → ℕ → CQ) :
    (Finset.sum (Finset.range n) fun a => Finset.sum (Finset.range n) fun b =>
      f a b * idMat A a * idMat B b) = f A B := by
  simp only [idMat, mul_ite, mul_one, mul_zero, ite_mul, zero_mul,
    Finset.sum_ite_eq, Finset.mem_range, hA, hB, if_true]

theorem sum4_delta (n A B C D : ℕ) (hA : A < n) (hB : B < n) (hC : C < n) (hD : D < n)
    (f : ℕ → ℕ → ℕ → ℕ → CQ) :
    (Finset.sum (Finset.range n) fun a => Finset.sum (Finset.range n) fun b =>
      Finset.sum (Finset.range n) fun c => Finset.sum (Finset.range n) fun d =>
        f a b c d * idMat A a * idMat B b * idMat C c * idMat D d) = f A B C D := by
  simp only [idMat, mul_ite, mul_one, mul_zero, ite_mul, zero_mul,
    Finset.sum_ite_eq, Finset.mem_range, hA, hB, hC, hD, if_true]

/-! ### Validation failures -/

theorem error_bind {α β : Type} (e : String) (k : α → Except String β) :
    (Except.error e >>= k) = Except.error e := rfl

theorem decodeStep_error_of_bad {tc : FTerm × CQ} (hbad : isBadTerm tc = true)
    (st : DecState) : ∃ e, decodeStep st tc = Except.error e := by
  obtain ⟨t, c⟩ := tc
  rcases t with _ | ⟨a1, _ | ⟨a2, _ | ⟨a3, _ | ⟨a4, _ | ⟨a5, t⟩⟩⟩⟩⟩
  · simp only [isBadTerm, decide_eq_true_eq] at hbad
    exact ⟨"Constant term must be real.", by simp [decodeStep, hbad]⟩
  · exact ⟨_, rfl⟩
  · simp only [isBadTerm, decide_eq_true_eq] at hbad
    exact ⟨"The one-body term is not of the allowed form.", by simp [decodeStep, hbad]⟩
  · exact ⟨_, rfl⟩
  · simp only [isBadTerm, decide_eq_true_eq] at hbad
    exact ⟨"The two-body term is not of the allowed form.", by simp [decodeStep, hbad]⟩
  · exact ⟨_, rfl⟩

theorem decodeStep_ok_of_good {tc : FTerm × CQ} (hgood : isBadTerm tc = false)
    (st : DecState) : ∃ st', decodeStep st tc = Except.ok st' := by
  obtain ⟨t, c⟩ := tc
  rcases t with _ | ⟨a1, _ | ⟨a2, _ | ⟨a3, _ | ⟨a4, _ | ⟨a5, t⟩⟩⟩⟩⟩
  · simp only [isBadTerm, decide_eq_false_iff_not, ne_eq, not_not] at hgood
    exact ⟨{ st with constant := c.re }, by simp [decodeStep, hgood]⟩
  · simp [isBadTerm] at hgood
  · simp only [isBadTerm, decide_eq_false_iff_not, not_not] at hgood
    exact ⟨{ st with
      one_body_tensor := upd2 st.one_body_tensor a1.2.2 a2.2.2
        (st.one_body_tensor a1.2.2 a2.2.2 + ofQ (1/2) * c) },
      by simp [decodeStep, hgood]⟩
  · simp [isBadTerm] at hgood
  · simp only [isBadTerm, decide_eq_false_iff_not, not_not] at hgood
    by_cases hseen : (a1.2.2, a4.2.2, a2.2.2, a3.2.2) ∈ st.seen_2b
    · exact ⟨st, by simp [decodeStep, hgood, hseen]⟩
    · exact ⟨{ st with
        two_body_tensor := fillOrbit st.two_body_tensor a1.2.2 a4.2.2 a2.2.2 a3.2.2
          (ofQ 2 * c) },
        by simp [decodeStep, hgood, hseen]⟩
  · simp [isBadTerm] at hgood

theorem foldlM_decode_error_of_bad (op : FermionOp) :
    ∀ st, (∃ tc ∈ op, isBadTerm tc = true) →
      ∃ e, op.foldlM decodeStep st = Except.error e := by
  induction op with
  | nil =>
      rintro st ⟨tc, h, -⟩
      cases h
  | cons t ts ih =>
      rintro st ⟨tc, htc, hbad⟩
      rcases List.mem_cons.mp htc with rfl | hmem
      · obtain ⟨e, he⟩ := decodeStep_error_of_bad hbad st
        exact ⟨e, by rw [List.foldlM_cons, he, error_bind]⟩
      · by_cases hb : isBadTerm t = true
        · obtain ⟨e, he⟩ := decodeStep_error_of_bad hb st
          exact ⟨e, by rw [List.foldlM_cons, he, error_bind]⟩
        · obtain ⟨st1, h1⟩ := decodeStep_ok_of_good (by simpa using hb) st
          obtain ⟨e, he⟩ := ih st1 ⟨tc, hmem, hbad⟩
          exact ⟨e, by rw [List.foldlM_cons, h1, ok_bind, he]⟩

/-! ### Claim theorems -/

/-- C5: for every record and every `norb × norb` matrix `U`, `rotated`
returns a record whose one-body tensor is
`one_body'[A,B] = Σ_{a,b} one_body[a,b] · U[A,a] · conj(U[B,b])`, whose
two-body tensor is
`two_body'[A,B,C,D] = Σ_{a,b,c,d} two_body[a,b,c,d] · U[A,a] · conj(U[B,b]) ·
U[C,c] · conj(U[D,d])`, and whose constant equals the input constant. -/
theorem rotated_postcondition (H : MolecularHamiltonian) (U : ℕ → ℕ → CQ) :
    (H.rotated U).constant = H.constant ∧
    (∀ A B, (H.rotated U).one_body_tensor A B =
      Finset.sum (Finset.range H.norb) fun a =>
        Finset.sum (Finset.range H.norb) fun b =>
          H.one_body_tensor a b * U A a * conjC (U B b)) ∧
    (∀ A B C D, (H.rotated U).two_body_tensor A B C D =
      Finset.sum (Finset.range H.norb) fun a =>
        Finset.sum (Finset.range H.norb) fun b =>
          Finset.sum (Finset.range H.norb) fun c =>
            Finset.sum (Finset.range H.norb) fun d =>
              H.two_body_tensor a b c d * U A a * conjC (U B b) * U C c * conjC (U D d)) :=
  ⟨rfl, fun _ _ => rfl, fun _ _ _ _ => rfl⟩

/-- C6: rotating any record by the identity matrix returns a record equal to
the input: same `norb`, same constant, and identical tensors on every
in-range index. -/
theorem rotated_identity (H : MolecularHamiltonian) :
    (H.rotated idMat).norb = H.norb ∧
    (H.rotated idMat).constant = H.constant ∧
    (∀ A B, A < H.norb → B < H.norb →
      (H.rotated idMat).one_body_tensor A B = H.one_body_tensor A B) ∧
    (∀ A B C D, A < H.norb → B < H.norb → C < H.norb → D < H.norb →
      (H.rotated idMat).two_body_tensor A B C D = H.two_body_tensor A B C D) := by
  refine ⟨rfl, rfl, ?_, ?_⟩
  · intro A B hA hB
    show (Finset.sum (Finset.range H.norb) fun a =>
      Finset.sum (Finset.range H.norb) fun b =>
        H.one_body_tensor a b * idMat A a * conjC (idMat B b)) = H.one_body_tensor A B
    simp only [conjC_idMat]
    exact sum2_delta H.norb A B hA hB H.one_body_tensor
  · intro A B C D hA hB hC hD
    show (Finset.sum (Finset.range H.norb) fun a =>
      Finset.sum (Finset.range H.norb) fun b =>
        Finset.sum (Finset.range H.norb) fun c =>
          Finset.sum (Finset.range H.norb) fun d =>
            H.two_body_tensor a b c d * idMat A a * conjC (idMat B b) *
              idMat C c * conjC (idMat D d)) = H.two_body_tensor A B C D
    simp only [conjC_idMat]
    exact sum4_delta H.norb A B C D hA hB hC hD H.two_body_tensor

/-- C6 witness: the rotation-identity theorem applied to the concrete
`norb = 2` record at concrete indices. -/
theorem rotated_identity_witness :
    (rotationRecord.rotated idMat).one_body_tensor 0 1 =
      rotationRecord.one_body_tensor 0 1 ∧
    (rotationRecord.rotated idMat).two_body_tensor 0 1 1 0 =
      rotationRecord.two_body_tensor 0 1 1 0 :=
  ⟨(rotated_identity rotationRecord).2.2.1 0 1 (by decide) (by decide),
   (rotated_identity rotationRecord).2.2.2 0 1 1 0
     (by decide) (by decide) (by decide) (by decide)⟩

/-- C9: `_approx_eq_` against a `MolecularHamiltonian` returns `True` exactly
when the constant and both tensors are elementwise close under
`|x - y| <= atol + rtol * |y|`; against any other object it returns the
`NotImplemented` sentinel. -/
theorem approx_eq_characterization (a b : MolecularHamiltonian) (rtol atol : ℚ) :
    (MolecularHamiltonian._approx_eq_ a (some b) rtol atol = some true ↔
      (|a.constant - b.constant| ≤ atol + rtol * |b.constant| ∧
       (∀ p, p < a.norb → ∀ q, q < a.norb →
         cabs (a.one_body_tensor p q - b.one_body_tensor p q) ≤
           (atol : ℝ) + (rtol : ℝ) * cabs (b.one_body_tensor p q)) ∧
       (∀ p, p < a.norb → ∀ q, q < a.norb → ∀ r, r < a.norb → ∀ s, s < a.norb →
         cabs (a.two_body_tensor p q r s - b.two_body_tensor p q r s) ≤
           (atol : ℝ) + (rtol : ℝ) * cabs (b.two_body_tensor p q r s)))) ∧
    MolecularHamiltonian._approx_eq_ a none rtol atol = none := by
  constructor
  · unfold MolecularHamiltonian._approx_eq_
    dsimp only
    by_cases h1 : npIscloseQ rtol atol a.constant b.constant
    · by_cases h2 : npAllclose2 rtol atol a.norb a.one_body_tensor b.one_body_tensor
      · by_cases h3 : npAllclose4 rtol atol a.norb a.two_body_tensor b.two_body_tensor
        · rw [if_neg (not_not.mpr h1), if_neg (not_not.mpr h2), if_neg (not_not.mpr h3)]
          exact iff_of_true rfl ⟨h1, h2, h3⟩
        · rw [if_neg (not_not.mpr h1), if_neg (not_not.mpr h2), if_pos h3]
          exact iff_of_false (by simp) fun hP => h3 hP.2.2
      · rw [if_neg (not_not.mpr h1), if_pos h2]
        exact iff_of_false (by simp) fun hP => h2 hP.2.1
    · rw [if_pos h1]
      exact iff_of_false (by simp) fun hP => h1 hP.1
  · rfl

/-- C10: decoding any term map in which no term carries an action (for
example a map holding only the empty constant term) fails while deriving
`norb`, because Python's `max` raises on the empty sequence of orbital
indices; no record is returned. -/
theorem decode_no_actions_error (op : FermionOp) (h : ∀ tc ∈ op, tc.1 = []) :
    from_fermion_operator op = Except.error "max() arg is an empty sequence" := by
  have ht : termOrbs op = [] := by
    rw [termOrbs, List.flatMap_eq_nil_iff]
    intro tc htc
    rw [h tc htc]
    rfl
  unfold from_fermion_operator
  rw [ht]
  rfl

/-- C10 witness: the no-action theorem applied to the map holding only the
empty constant term with coefficient `5.0`. -/
theorem decode_no_actions_error_witness :
    from_fermion_operator constOnlyOp = Except.error "max() arg is an empty sequence" :=
  decode_no_actions_error constOnlyOp (by decide)

/-- C8: decoding any term map that contains a rejected term (wrong length, a
non-real constant term, a one-body term outside the same-spin
create/annihilate pattern, or a two-body term outside the four allowed spin
patterns) raises a validation error. -/
theorem decode_validation_error (op : FermionOp)
    (h : ∃ tc ∈ op, isBadTerm tc = true) :
    ∃ e, from_fermion_operator op = Except.error e := by
  unfold from_fermion_operator
  cases ht : termOrbs op with
  | nil => exact ⟨"max() arg is an empty sequence", rfl⟩
  | cons o os =>
      obtain ⟨e, he⟩ := foldlM_decode_error_of_bad op initState h
      refine ⟨e, ?_⟩
      rw [show (⟨0, fun _ _ => 0, fun _ _ _ _ => 0, []⟩ : DecState) = initState from rfl,
        he]
      rfl

/-- C8 witness: the validation theorem applied to a term map containing a
3-action term. -/
theorem decode_validation_error_witness :
    ∃ e, from_fermion_operator threeActionOp = Except.error e :=
  decode_validation_error threeActionOp (by decide)

/-- C7 counterexample: a record whose tensors hold only real values, stored
(as `from_fermion_operator` always stores them) in complex-dtype arrays:
the claim predicts success, but `_diag_` raises because `np.iscomplexobj`
tests the dtype, not the values. -/
theorem diag_counterexample :
    realValued2 realValuedRecord.norb realValuedRecord.one_body_tensor ∧
    realValued4 realValuedRecord.norb realValuedRecord.two_body_tensor ∧
    MolecularHamiltonian._diag_ mkHdiag0 realValuedRecord true true 1 (1, 0) =
      Except.error
        "Computing diagonal of complex molecular Hamiltonian is not yet supported." := by
  exact ⟨fun _ _ _ _ => rfl, fun _ _ _ _ _ _ _ _ => rfl, rfl⟩

/-- C7 (amended): `_diag_` fails exactly when one of the tensors is stored
with a complex dtype; in particular it fails whenever a tensor holds a
non-real value (such a value forces a complex dtype); otherwise it returns
the external CI diagonal of the two untouched tensors with the constant
added to every entry. -/
theorem diag_spec
    (mk : (ℕ → ℕ → CQ) → (ℕ → ℕ → ℕ → ℕ → CQ) → ℕ → ℕ × ℕ → ℕ → ℚ)
    (H : MolecularHamiltonian) (oneDt twoDt : Bool) (norb : ℕ) (nelec : ℕ × ℕ)
    (hone : oneDt = false → realValued2 H.norb H.one_body_tensor)
    (htwo : twoDt = false → realValued4 H.norb H.two_body_tensor) :
    ((∃ e, MolecularHamiltonian._diag_ mk H oneDt twoDt norb nelec = Except.error e) ↔
      (twoDt || oneDt) = true) ∧
    ((¬ realValued2 H.norb H.one_body_tensor ∨ ¬ realValued4 H.norb H.two_body_tensor) →
      ∃ e, MolecularHamiltonian._diag_ mk H oneDt twoDt norb nelec = Except.error e) ∧
    ((twoDt || oneDt) = false →
      MolecularHamiltonian._diag_ mk H oneDt twoDt norb nelec =
        Except.ok fun i => mk H.one_body_tensor H.two_body_tensor norb nelec i + H.constant) := by
  cases oneDt <;> cases twoDt
  · refine ⟨⟨?_, ?_⟩, ?_, fun _ => rfl⟩
    · rintro ⟨e, he⟩
      exact Except.noConfusion he
    · intro hff
      exact Bool.noConfusion hff
    · rintro (hbad | hbad)
      · exact absurd (hone rfl) hbad
      · exact absurd (htwo rfl) hbad
  · exact ⟨⟨fun _ => rfl, fun _ => ⟨_, rfl⟩⟩, fun _ => ⟨_, rfl⟩,
      fun hff => Bool.noConfusion hff⟩
  · exact ⟨⟨fun _ => rfl, fun _ => ⟨_, rfl⟩⟩, fun _ => ⟨_, rfl⟩,
      fun hff => Bool.noConfusion hff⟩
  · exact ⟨⟨fun _ => rfl, fun _ => ⟨_, rfl⟩⟩, fun _ => ⟨_, rfl⟩,
      fun hff => Bool.noConfusion hff⟩

/-- C7 witness: the amended diagonal theorem applied to a concrete real
record stored with float dtypes and a concrete external routine. -/
theorem diag_spec_witness :
    ((∃ e, MolecularHamiltonian._diag_ mkHdiag0 realValuedRecord false false 1 (1, 0) =
        Except.error e) ↔ (false || false) = true) ∧
    ((¬ realValued2 realValuedRecord.norb realValuedRecord.one_body_tensor ∨
      ¬ realValued4 realValuedRecord.norb realValuedRecord.two_body_tensor) →
      ∃ e, MolecularHamiltonian._diag_ mkHdiag0 realValuedRecord false false 1 (1, 0) =
        Except.error e) ∧
    ((false || false) = false →
      MolecularHamiltonian._diag_ mkHdiag0 realValuedRecord false false 1 (1, 0) =
        Except.ok fun i => mkHdiag0 realValuedRecord.one_body_tensor
          realValuedRecord.two_body_tensor 1 (1, 0) i + realValuedRecord.constant) :=
  diag_spec mkHdiag0 realValuedRecord false false 1 (1, 0)
    (fun _ _ _ _ _ => rfl) (fun _ _ _ _ _ _ _ _ _ => rfl)

/-- C4: the two-body tensor returned by any successful `from_fermion_operator`
call satisfies all 8 index-permutation equalities at every quadruple. -/
theorem decode_two_body_symmetric (op : FermionOp) (H : MolecularHamiltonian)
    (h : from_fermion_operator op = Except.ok H) (p q r s : ℕ) :
    H.two_body_tensor q p r s = H.two_body_tensor p q r s ∧
    H.two_body_tensor p q s r = H.two_body_tensor p q r s ∧
    H.two_body_tensor q p s r = H.two_body_tensor p q r s ∧
    H.two_body_tensor r s p q = H.two_body_tensor p q r s ∧
    H.two_body_tensor s r p q = H.two_body_tensor p q r s ∧
    H.two_body_tensor r s q p = H.two_body_tensor p q r s ∧
    H.two_body_tensor s r q p = H.two_body_tensor p q r s := by
  obtain ⟨o, os, st, ht, hf, rfl⟩ := from_fermion_operator_ok h
  exact sym8_seven (foldlM_decode_sym op initState st hf sym8_initState) p q r s

/-- C4 witness: the symmetry theorem applied to the decode of a concrete
single-term operator, at the quadruple `(0, 1, 1, 0)`. -/
theorem decode_two_body_symmetric_witness :
    (decodeD symWitnessOp).two_body_tensor 1 0 1 0 =
      (decodeD symWitnessOp).two_body_tensor 0 1 1 0 ∧
    (decodeD symWitnessOp).two_body_tensor 0 1 0 1 =
      (decodeD symWitnessOp).two_body_tensor 0 1 1 0 ∧
    (decodeD symWitnessOp).two_body_tensor 1 0 0 1 =
      (decodeD symWitnessOp).two_body_tensor 0 1 1 0 ∧
    (decodeD symWitnessOp).two_body_tensor 1 0 0 1 =
      (decodeD symWitnessOp).two_body_tensor 0 1 1 0 ∧
    (decodeD symWitnessOp).two_body_tensor 0 1 0 1 =
      (decodeD symWitnessOp).two_body_tensor 0 1 1 0 ∧
    (decodeD symWitnessOp).two_body_tensor 1 0 1 0 =
      (decodeD symWitnessOp).two_body_tensor 0 1 1 0 ∧
    (decodeD symWitnessOp).two_body_tensor 0 1 1 0 =
      (decodeD symWitnessOp).two_body_tensor 0 1 1 0 :=
  decode_two_body_symmetric symWitnessOp (decodeD symWitnessOp) rfl 0 1 1 0

/-- C2: evaluating `from_fermion_operator` on a term map holding two valid
two-body terms over the same literal quadruple `(0, 0, 0, 0)` — coefficient
`1.0` first, then `3.0`.  The source never inserts into `seen_2b` (the
`seen_2b.add` the comment promises is missing), so the second term re-fires
the 8-fold write and the final entry is `2 * 3.0 = 6.0`, not the
`2 * 1.0 = 2.0` that first-seen deduplication would give. -/
theorem dup_quad_last_write :
    (from_fermion_operator dupQuadOp).toOption.map
      (fun H => H.two_body_tensor 0 0 0 0) = some (ofQ 6) ∧ ofQ 6 ≠ ofQ 2 := by
  constructor
  · show some (ofQ 2 * ofQ 3) = some (ofQ 6)
    refine congrArg some ?_
    ext <;> norm_num [ofQ]
  · intro hc
    have := congrArg CQ.re hc
    norm_num [ofQ] at this

/-- C3 counterexample: encoding the record with `one_body_tensor = [[2.0]]`
yields its two one-body terms with coefficient `2.0` each (the raw tensor
entry), not `1.0` as the claim states. -/
theorem encode_example_counterexample :
    ((exampleRecord._fermion_operator_.filter fun tc => tc.1.length == 2).map
      Prod.snd) = [ofQ 2, ofQ 2] ∧ ofQ 2 ≠ ofQ 1 := by
  constructor
  · rfl
  · intro hc
    have := congrArg CQ.re hc
    norm_num [ofQ] at this

/-- C3 (amended): encoding the `norb = 1`, `one_body_tensor = [[2.0]]`,
zero-two-body, zero-constant record yields exactly two one-body terms — the
alpha then the beta channel — each with coefficient `2.0`, all two-body terms
with coefficient `0.0`, and decoding the term set reproduces `norb = 1`,
`one_body_tensor = [[2.0]]` and constant `0.0`. -/
theorem encode_example :
    (exampleRecord._fermion_operator_.filter fun tc => tc.1.length == 2) =
      [([cre_a 0, des_a 0], ofQ 2), ([cre_b 0, des_b 0], ofQ 2)] ∧
    (∀ tc ∈ exampleRecord._fermion_operator_, tc.1.length = 4 → tc.2 = 0) ∧
    (from_fermion_operator exampleRecord._fermion_operator_).toOption.map
      (fun H => (H.norb, H.one_body_tensor 0 0, H.constant)) =
      some (1, ofQ 2, 0) := by
  refine ⟨rfl, ?_, ?_⟩
  · have henc : exampleRecord._fermion_operator_ =
        [(([] : FTerm), ofQ 0),
         ([cre_a 0, des_a 0], ofQ 2), ([cre_b 0, des_b 0], ofQ 2),
         ([cre_a 0, cre_a 0, des_a 0, des_a 0], ofQ (1/2) * 0),
         ([cre_a 0, cre_b 0, des_b 0, des_a 0], ofQ (1/2) * 0),
         ([cre_b 0, cre_a 0, des_a 0, des_b 0], ofQ (1/2) * 0),
         ([cre_b 0, cre_b 0, des_b 0, des_b 0], ofQ (1/2) * 0)] := rfl
    intro tc htc hlen
    rw [henc] at htc
    simp only [List.mem_cons, List.not_mem_nil, or_false] at htc
    rcases htc with rfl | rfl | rfl | rfl | rfl | rfl | rfl <;> simp_all
  · show some (1, (0 : CQ) + ofQ (1/2) * ofQ 2 + ofQ (1/2) * ofQ 2, (0 : ℚ)) =
      some (1, ofQ 2, 0)
    refine congrArg some (Prod.ext rfl (Prod.ext ?_ rfl))
    ext <;> norm_num [ofQ]

/-- C1 counterexample: the `norb = 0` record (empty tensors, constant `5.0`)
has a vacuously real and 8-fold-symmetric two-body tensor, yet decoding its
encoding returns no record: the only emitted term is the empty constant
term, so `norb` derivation hits `max()` of an empty sequence and raises. -/
theorem round_trip_counterexample :
    realValued4 emptyRecord.norb emptyRecord.two_body_tensor ∧
    EightFoldSym emptyRecord.norb emptyRecord.two_body_tensor ∧
    (from_fermion_operator emptyRecord._fermion_operator_).toOption = none := by
  refine ⟨?_, ?_, rfl⟩ <;> intro p hp <;> exact absurd hp (Nat.not_lt_zero p)

/-- C1 (amended): for every record with `norb ≥ 1` whose two-body tensor is
real-valued and 8-fold symmetric, decoding the encoded term map succeeds and
reproduces the record exactly: same `norb`, same constant, and identical
tensors at every in-range index. -/
theorem codec_round_trip (H : MolecularHamiltonian) (hn : 1 ≤ H.norb)
    (_hreal : realValued4 H.norb H.two_body_tensor)
    (hsym : EightFoldSym H.norb H.two_body_tensor) :
    ∃ H', from_fermion_operator H._fermion_operator_ = Except.ok H' ∧
      H'.norb = H.norb ∧ H'.constant = H.constant ∧
      (∀ p q, p < H.norb → q < H.norb →
        H'.one_body_tensor p q = H.one_body_tensor p q) ∧
      (∀ p q r s, p < H.norb → q < H.norb → r < H.norb → s < H.norb →
        H'.two_body_tensor p q r s = H.two_body_tensor p q r s) := by
  obtain ⟨o, os, ht, hmax⟩ := termOrbs_encode_spec H hn
  refine ⟨_, from_fermion_operator_eq ht (decode_encode_state H), hmax, rfl, ?_, ?_⟩
  · intro p q hp hq
    show ((pyProduct2 H.norb).foldl
      (fun g pq => upd2 g pq.1 pq.2 (g pq.1 pq.2 + H.one_body_tensor pq.1 pq.2))
      (fun _ _ => 0)) p q = H.one_body_tensor p q
    rw [foldl_one_entries H.one_body_tensor (pyProduct2 H.norb) (nodup_pyProduct2 H.norb)
      (fun _ _ => 0) p q, if_pos ((mem_pyProduct2 H.norb p q).mpr ⟨hp, hq⟩)]
    exact zero_add (H.one_body_tensor p q)
  · intro p q r s hp hq hr hs
    show ((pyProduct4 H.norb).foldl
      (fun g k => fillOrbit g k.1 k.2.1 k.2.2.1 k.2.2.2
        (H.two_body_tensor k.1 k.2.1 k.2.2.1 k.2.2.2))
      (fun _ _ _ _ => 0)) p q r s = H.two_body_tensor p q r s
    exact (foldl_two_entries H.two_body_tensor (pyProduct4 H.norb)
      (eightfold_orbit hsym) (fun _ _ _ _ => 0) p q r s).1
      ⟨(p, q, r, s), (mem_pyProduct4 H.norb p q r s).mpr ⟨hp, hq, hr, hs⟩,
        List.mem_cons_self _ _⟩

/-- C1 witness: the round-trip theorem applied to a concrete `norb = 1`
record with a complex one-body entry, a real symmetric two-body entry and
constant `5.0`. -/
theorem codec_round_trip_witness :
    ∃ H', from_fermion_operator roundTripRecord._fermion_operator_ = Except.ok H' ∧
      H'.norb = roundTripRecord.norb ∧ H'.constant = roundTripRecord.constant ∧
      (∀ p q, p < roundTripRecord.norb → q < roundTripRecord.norb →
        H'.one_body_tensor p q = roundTripRecord.one_body_tensor p q) ∧
      (∀ p q r s, p < roundTripRecord.norb → q < roundTripRecord.norb →
        r < roundTripRecord.norb → s < roundTripRecord.norb →
        H'.two_body_tensor p q r s = roundTripRecord.two_body_tensor p q r s) :=
  codec_round_trip roundTripRecord (by decide) (fun _ _ _ _ _ _ _ _ => rfl)
    (fun _ _ _ _ _ _ _ _ => ⟨rfl, rfl, rfl, rfl, rfl, rfl, rfl⟩)
